import Mathlib

/-!
# Verification of `Dataset.py` (SAR-Shadow-Deforestation)

Shallow embedding of the dataset download-and-extract script.  The script
parses a metalink XML manifest, and for each `file` entry downloads the
URL into `downloads/<name>` (streaming, with a tqdm progress bar) and then
extracts the downloaded zip into `data/<name-without-extension>/`.

The embedding models:
  * POSIX path helpers `os.path.basename`, `os.path.splitext`,
    `os.path.join` exactly as CPython computes them (for the inputs the
    script produces);
  * the network as a function from URL to a response (or a connection
    error: `requests.get` raises on connection failures but does **not**
    raise on non-success HTTP statuses — the script never calls
    `raise_for_status`);
  * the zip library (`zipfile.ZipFile` / `extractall`) abstractly as a
    decoder from file bytes to an optional member list (`none` models
    `zipfile.BadZipFile`);
  * the filesystem as a map from path to byte contents together with a
    set of created directories;
  * the observable operation trace (downloads performed, extractions
    performed) and the lines printed to the console.

Bytes are `Nat`; byte strings are `List Nat`.
-/

namespace Dataset

/-- A byte of a file or of an HTTP response body. -/
abbrev Byte := Nat

/-- An HTTP response as produced by `requests.get(url, stream=True)`:
the status code, the optional parsed `content-length` header, and the
chunk sequence that `iter_content(chunk_size=1024)` yields. -/
structure HttpResponse where
  status : Nat
  contentLength : Option Nat
  chunks : List (List Byte)
deriving DecidableEq, Repr

/-- Outcome of `requests.get`: a response, or a raised connection error.
`requests.get` returns normally for every HTTP status code (including
4xx/5xx); only transport-level failures raise. -/
inductive NetResult where
  | ok (response : HttpResponse)
  | connectionError
deriving DecidableEq, Repr

/-- One `file` element of the metalink manifest, already parsed: the
`name` attribute and the text of the nested `url` element. -/
structure ManifestEntry where
  name : String
  url : String
deriving DecidableEq, Repr

/-- The script's environment: the network, and the zip library.
`zipDecode b = some members` means the byte string `b` parses as a zip
archive whose members are `(relative path, contents)` pairs, extracted in
order by `extractall`; `zipDecode b = none` models `zipfile.BadZipFile`
raised on non-zip content. -/
structure Config where
  net : String → NetResult
  zipDecode : List Byte → Option (List (String × List Byte))

/-! ## POSIX path helpers (as used on lines 16, 24, 25, 45) -/

/-- Splits a character list at its **last** occurrence of `sep`,
returning the parts before and after it; `none` when `sep` is absent. -/
def splitAtLastChar (sep : Char) : List Char → Option (List Char × List Char)
  | [] => none
  | c :: cs =>
    match splitAtLastChar sep cs with
    | some (a, b) => some (c :: a, b)
    | none => if c = sep then some ([], cs) else none

/-- `os.path.basename` on POSIX: everything after the last `/`. -/
def basename (p : String) : String :=
  match splitAtLastChar '/' p.toList with
  | some (_, b) => ⟨b⟩
  | none => p

/-- Splits a character list at its last `'.'`. -/
def splitAtLastDot : List Char → Option (List Char × List Char) :=
  splitAtLastChar '.'

/-- `os.path.splitext(s)[0]` for a string without path separators (the
script only applies it to a `basename`): the part before the last dot,
except that a name whose characters before its last dot are all dots
(e.g. `".gz"`, `"..gz"`) is returned unchanged, exactly as CPython's
`genericpath._splitext` does. -/
def splitextRoot (s : String) : String :=
  match splitAtLastDot s.toList with
  | none => s
  | some (a, _) => if a.all (fun c => c = '.') then s else ⟨a⟩

/-- `os.path.join(a, b)` on POSIX for two components: `b` if `b` is
absolute, otherwise `a` and `b` glued with a single `/` (no extra `/`
when `a` is empty or already ends in one). -/
def pjoin (a b : String) : String :=
  if b.toList.head? = some '/' then b
  else if a.toList = [] ∨ a.toList.getLast? = some '/' then a ++ b
  else a ++ "/" ++ b

/-- Line 45: `file_path = os.path.join("downloads", file_name)`. -/
def file_path (file_name : String) : String :=
  pjoin "downloads" file_name

/-- Lines 24–25: the extraction target
`os.path.join(destination_folder, os.path.splitext(os.path.basename(zip_path))[0])`. -/
def extractDir (destination_folder zip_path : String) : String :=
  pjoin destination_folder (splitextRoot (basename zip_path))

/-! ## Filesystem model -/

/-- The files on disk: path ↦ byte contents. -/
abbrev FileSys := String → Option (List Byte)

/-- The set of directories that exist. -/
abbrev DirSet := String → Bool

/-- Writing a file with `open(p, 'wb')`: the previous contents at `p`
(if any) are discarded and replaced. -/
def setFile (fs : FileSys) (p : String) (v : List Byte) : FileSys :=
  fun q => if q = p then some v else fs q

/-- A directory coming into existence. -/
def addDir (ds : DirSet) (d : String) : DirSet :=
  fun q => if q = d then true else ds q

/-- Apply a list of file writes in order. -/
def applyWrites (ws : List (String × List Byte)) (fs : FileSys) : FileSys :=
  ws.foldl (fun f w => setFile f w.1 w.2) fs

/-- Apply a list of directory creations in order. -/
def applyDirs (l : List String) (ds : DirSet) : DirSet :=
  l.foldl addDir ds

/-- Splitting a character list on `'/'`, like `str.split("/")`:
`"a//b"` gives `["a", "", "b"]`, the empty list gives `[""]`. -/
def splitOnSlash : List Char → List (List Char)
  | [] => [[]]
  | c :: cs =>
    match splitOnSlash cs with
    | [] => [[c]]
    | g :: gs => if c = '/' then [] :: g :: gs else (c :: g) :: gs

/-- Joining components with `'/'`, the inverse of `splitOnSlash`. -/
def joinSlash : List (List Char) → List Char
  | [] => []
  | [g] => g
  | g :: gs => g ++ '/' :: joinSlash gs

/-- All the `/`-separated prefixes of a path, shortest first:
`ancestors "data/a" = ["data", "data/a"]`.  These are the directories
`os.makedirs` brings into existence. -/
def ancestors (p : String) : List String :=
  let comps := splitOnSlash p.toList
  (List.range comps.length).map (fun i => ⟨joinSlash (comps.take (i + 1))⟩)

/-- `os.makedirs(p, exist_ok=True)`: creates the directory and any
missing parents; a pre-existing directory is not an error, so this never
fails. -/
def makedirs (ds : DirSet) (p : String) : DirSet :=
  applyDirs (ancestors p) ds

/-! ## Program state and observable events -/

/-- An observable operation of the script: a completed download of a URL
into a destination file, or a completed extraction of a zip into a target
directory. -/
inductive Event where
  | download (url : String) (dest : String)
  | extract (zipPath : String) (target : String)
deriving DecidableEq, Repr

/-- The script's state: the filesystem, the directory set, the trace of
completed operations, and the lines printed to stdout. -/
structure State where
  fs : FileSys
  dirs : DirSet
  events : List Event
  out : List String

/-- The state of the empty working directory before the script runs. -/
def initState : State :=
  { fs := fun _ => none, dirs := fun _ => false, events := [], out := [] }

/-- The tqdm progress bar of lines 11–17: configured total, bytes counted
so far, and description label. -/
structure Tqdm where
  total : Nat
  n : Nat
  desc : String
deriving DecidableEq, Repr

/-! ## The script -/

/-- Lines 18–21: the chunk loop.  Each truthy (non-empty) chunk is
appended to the file and counted on the bar; empty chunks are skipped by
`if chunk:`. -/
def dlChunks : List (List Byte) → List Byte → Tqdm → List Byte × Tqdm
  | [], acc, bar => (acc, bar)
  | c :: cs, acc, bar =>
    if c.isEmpty then dlChunks cs acc bar
    else dlChunks cs (acc ++ c) { bar with n := bar.n + c.length }

/-- Lines 7–21: `download_file(url, destination_path)`.  A connection
error raised by `requests.get` aborts with the state untouched (the
destination file is never opened).  Otherwise — for **any** HTTP status —
the destination file is created/truncated and the response chunks are
streamed into it while the bar counts bytes; the bar total is the
`content-length` header, defaulting to `0` when absent. -/
def download_file (cfg : Config) (url destination_path : String) (st : State) :
    Except State (State × Tqdm) :=
  match cfg.net url with
  | NetResult.connectionError => Except.error st
  | NetResult.ok response =>
    let total_size := response.contentLength.getD 0
    let result := dlChunks response.chunks [] ⟨total_size, 0, basename destination_path⟩
    Except.ok
      ({ st with
          fs := setFile st.fs destination_path result.1,
          events := st.events ++ [Event.download url destination_path] },
       result.2)

/-- Lines 23–29: `extract_zip(zip_path, destination_folder)`.  The target
directory is created (with `exist_ok=True`) **before** the zip is opened,
so it exists even when opening or decoding the archive then fails.
A missing file or undecodable (non-zip) content raises, aborting with the
directory already created; otherwise every member is written under the
target directory and the confirmation line is printed. -/
def extract_zip (cfg : Config) (zip_path destination_folder : String) (st : State) :
    Except State State :=
  let extract_to := extractDir destination_folder zip_path
  let st1 : State := { st with dirs := makedirs st.dirs extract_to }
  match st1.fs zip_path with
  | none => Except.error st1
  | some bytes =>
    match cfg.zipDecode bytes with
    | none => Except.error st1
    | some members =>
      Except.ok
        { st1 with
          fs := members.foldl (fun f m => setFile f (pjoin extract_to m.1) m.2) st1.fs,
          events := st1.events ++ [Event.extract zip_path extract_to],
          out := st1.out ++ ["Extracted: " ++ zip_path ++ " to " ++ extract_to] }

/-- Lines 42–49: the body of the manifest loop for one entry: download
into `downloads/<name>`, then extract into `data`.  An error from either
step propagates with the state reached at the raise. -/
def processEntry (cfg : Config) (st : State) (e : ManifestEntry) : Except State State :=
  match download_file cfg e.url (file_path e.name) st with
  | Except.error stE => Except.error stE
  | Except.ok (st1, _bar) => extract_zip cfg (file_path e.name) "data" st1

/-- A finished run: either all entries processed, or the run aborted on
an unhandled error with the state at the point of the raise. -/
inductive RunOutcome where
  | completed (st : State)
  | aborted (st : State)

/-- The state carried by a run outcome. -/
def RunOutcome.state : RunOutcome → State
  | RunOutcome.completed st => st
  | RunOutcome.aborted st => st

/-- Whether the run completed normally. -/
def RunOutcome.isCompleted : RunOutcome → Bool
  | RunOutcome.completed _ => true
  | RunOutcome.aborted _ => false

/-- The state carried by an `Except State State`. -/
def exceptState : Except State State → State
  | Except.ok st => st
  | Except.error st => st

/-- Line 41: the `for file in root.findall(...)` loop.  Entries are
processed strictly in document order; the first unhandled error aborts
the whole run. -/
def runLoop (cfg : Config) : List ManifestEntry → State → RunOutcome
  | [], st => RunOutcome.completed st
  | e :: rest, st =>
    match processEntry cfg st e with
    | Except.error stE => RunOutcome.aborted stE
    | Except.ok st1 => runLoop cfg rest st1

/-- Lines 31–51: the whole script, with the manifest already parsed into
its entry list.  Creates `downloads` and `data`, runs the loop, and on
normal completion prints the final message. -/
def runProgram (cfg : Config) (manifest : List ManifestEntry) (st0 : State) : RunOutcome :=
  match runLoop cfg manifest
      { st0 with dirs := makedirs (makedirs st0.dirs "downloads") "data" } with
  | RunOutcome.completed st =>
    RunOutcome.completed { st with out := st.out ++ ["Download and extraction complete."] }
  | RunOutcome.aborted st => RunOutcome.aborted st

/-! ## Derived descriptions of a successful entry -/

/-- The two operations a successfully processed entry performs. -/
def entryEvents (e : ManifestEntry) : List Event :=
  [Event.download e.url (file_path e.name),
   Event.extract (file_path e.name) (extractDir "data" (file_path e.name))]

/-- The confirmation line a successfully processed entry prints. -/
def entryPrint (e : ManifestEntry) : String :=
  "Extracted: " ++ file_path e.name ++ " to " ++ extractDir "data" (file_path e.name)

/-- The file writes and directory creations a successfully processed
entry performs, `none` when processing the entry raises.  The writes and
the success condition depend only on the environment, never on the
filesystem the entry starts from. -/
def entryEffect (cfg : Config) (e : ManifestEntry) :
    Option (List (String × List Byte) × List String) :=
  match cfg.net e.url with
  | NetResult.connectionError => none
  | NetResult.ok r =>
    let body := r.chunks.flatten
    match cfg.zipDecode body with
    | none => none
    | some members =>
      some ((file_path e.name, body) ::
              members.map (fun m => (pjoin (extractDir "data" (file_path e.name)) m.1, m.2)),
            ancestors (extractDir "data" (file_path e.name)))

/-- The effects of a list of entries, `none` as soon as one fails. -/
def effectsOf (cfg : Config) : List ManifestEntry →
    Option (List (String × List Byte) × List String)
  | [] => some ([], [])
  | e :: rest =>
    match entryEffect cfg e, effectsOf cfg rest with
    | some (ws, ds), some (ws', ds') => some (ws ++ ws', ds ++ ds')
    | _, _ => none

/-- The most recent value written to `q` by a write list, if any. -/
def lastWrite : List (String × List Byte) → String → Option (List Byte)
  | [], _ => none
  | w :: tl, q =>
    match lastWrite tl q with
    | some v => some v
    | none => if w.1 = q then some w.2 else none

/-- Every file present in `s` is still present (possibly with different
contents) in `t`: nothing is deleted or rolled back. -/
def fsPreserved (s t : State) : Prop :=
  ∀ q v, s.fs q = some v → ∃ w, t.fs q = some w

/-- Every directory of `s` still exists in `t`. -/
def dirsPreserved (s t : State) : Prop :=
  ∀ q, s.dirs q = true → t.dirs q = true

/-- Resolution of the `.`/`..`/empty segments of a POSIX path: the
effective component list the path denotes relative to the working
directory. -/
def resolveRel (p : String) : List String :=
  (splitOnSlash p.toList).foldl
    (fun stack seg =>
      if seg = ['.', '.'] then stack.dropLast
      else if seg = [] ∨ seg = ['.'] then stack
      else stack ++ [⟨seg⟩]) []

/-- Whether an event is a download operation. -/
def Event.isDownload : Event → Bool
  | Event.download _ _ => true
  | Event.extract _ _ => false

/-- Whether an event is an extraction operation. -/
def Event.isExtract : Event → Bool
  | Event.download _ _ => false
  | Event.extract _ _ => true

/-- Spec-side reading of the extraction folder rule ("the subfolder name
is the archive's base name with its extension stripped" / "strips only
the final extension"): drop everything from the last dot on, whenever a
dot exists. -/
def stripFinalExt (s : String) : String :=
  match splitAtLastDot s.toList with
  | none => s
  | some (a, _) => ⟨a⟩

/-! ## Basic lemmas about the filesystem primitives -/

theorem setFile_self (fs : FileSys) (p : String) (v : List Byte) :
    setFile fs p v p = some v := by
  simp [setFile]

theorem setFile_ne (fs : FileSys) (p : String) (v : List Byte) (q : String)
    (h : q ≠ p) : setFile fs p v q = fs q := by
  simp [setFile, h]

theorem applyWrites_cons (w : String × List Byte) (ws : List (String × List Byte))
    (fs : FileSys) : applyWrites (w :: ws) fs = applyWrites ws (setFile fs w.1 w.2) := rfl

theorem applyWrites_append (ws₁ ws₂ : List (String × List Byte)) (fs : FileSys) :
    applyWrites (ws₁ ++ ws₂) fs = applyWrites ws₂ (applyWrites ws₁ fs) := by
  simp [applyWrites, List.foldl_append]

theorem applyWrites_lookup (ws : List (String × List Byte)) :
    ∀ (fs : FileSys) (q : String), applyWrites ws fs q =
      match lastWrite ws q with
      | some v => some v
      | none => fs q := by
  induction ws with
  | nil => intro fs q; rfl
  | cons w tl ih =>
    intro fs q
    rw [applyWrites_cons, ih]
    cases h : lastWrite tl q with
    | some v => simp [lastWrite, h]
    | none =>
      simp only [lastWrite, h]
      by_cases hq : w.1 = q
      · subst hq; simp [setFile]
      · have hq' : q ≠ w.1 := fun h' => hq h'.symm
        simp [setFile, hq, hq']

theorem applyWrites_idem (ws : List (String × List Byte)) (fs : FileSys) :
    applyWrites ws (applyWrites ws fs) = applyWrites ws fs := by
  funext q
  rw [applyWrites_lookup]
  cases h : lastWrite ws q with
  | some v => rw [applyWrites_lookup, h]
  | none => rw [applyWrites_lookup, h]

theorem applyDirs_lookup (l : List String) :
    ∀ (ds : DirSet) (q : String), applyDirs l ds q = (if q ∈ l then true else ds q) := by
  induction l with
  | nil => intro ds q; simp [applyDirs]
  | cons x tl ih =>
    intro ds q
    show applyDirs tl (addDir ds x) q = _
    rw [ih]
    by_cases hm : q ∈ tl
    · simp [hm]
    · by_cases hx : q = x <;> simp [hm, hx, addDir]

theorem applyDirs_append (l₁ l₂ : List String) (ds : DirSet) :
    applyDirs (l₁ ++ l₂) ds = applyDirs l₂ (applyDirs l₁ ds) := by
  simp [applyDirs, List.foldl_append]

theorem applyDirs_idem (l : List String) (ds : DirSet) :
    applyDirs l (applyDirs l ds) = applyDirs l ds := by
  funext q
  rw [applyDirs_lookup]
  by_cases hm : q ∈ l
  · rw [applyDirs_lookup]; simp [hm]
  · rw [applyDirs_lookup]; simp [hm]

theorem applyDirs_mono (l : List String) (ds : DirSet) (q : String)
    (h : ds q = true) : applyDirs l ds q = true := by
  rw [applyDirs_lookup]
  by_cases hm : q ∈ l <;> simp [hm, h]

/-- The chunk loop writes the concatenation of the chunks (empty chunks
contribute nothing) and counts exactly those bytes on the bar; the bar's
total and description never change. -/
theorem dlChunks_spec (cs : List (List Byte)) :
    ∀ (acc : List Byte) (bar : Tqdm), dlChunks cs acc bar =
      (acc ++ cs.flatten, { bar with n := bar.n + cs.flatten.length }) := by
  induction cs with
  | nil => intro acc bar; simp [dlChunks]
  | cons c cs ih =>
    intro acc bar
    by_cases hc : c.isEmpty
    · have hce : c = [] := List.isEmpty_iff.mp hc
      subst hce
      simp [dlChunks, ih]
    · simp [dlChunks, hc, ih, List.append_assoc, Nat.add_assoc]

/-! ## Characterizing one entry's processing -/

/-- When an entry's effect is defined, processing it from **any** state
succeeds and applies exactly that effect: the writes, the directory
creations, the two trace events, and the confirmation line.  The effect
does not depend on the starting state. -/
theorem processEntry_ok_of_effect (cfg : Config) (e : ManifestEntry)
    (ws : List (String × List Byte)) (ds : List String)
    (h : entryEffect cfg e = some (ws, ds)) (st : State) :
    processEntry cfg st e = Except.ok
      { fs := applyWrites ws st.fs, dirs := applyDirs ds st.dirs,
        events := st.events ++ entryEvents e, out := st.out ++ [entryPrint e] } := by
  cases hnet : cfg.net e.url with
  | connectionError => simp [entryEffect, hnet] at h
  | ok r =>
    cases hz : cfg.zipDecode r.chunks.flatten with
    | none => simp [entryEffect, hnet, hz] at h
    | some members =>
      simp only [entryEffect, hnet, hz, Option.some.injEq, Prod.mk.injEq] at h
      obtain ⟨hws, hds⟩ := h
      subst hws hds
      simp only [processEntry, download_file, hnet, extract_zip, dlChunks_spec,
        List.nil_append, setFile_self, hz, makedirs, applyWrites,
        List.foldl_cons, List.foldl_map, entryEvents, entryPrint,
        List.append_assoc, List.singleton_append, Except.ok.injEq]

/-- Conversely, an entry that processes successfully has a defined
effect. -/
theorem effect_some_of_processEntry_ok (cfg : Config) (st : State) (e : ManifestEntry)
    (st' : State) (h : processEntry cfg st e = Except.ok st') :
    ∃ ws ds, entryEffect cfg e = some (ws, ds) := by
  cases hnet : cfg.net e.url with
  | connectionError => simp [processEntry, download_file, hnet] at h
  | ok r =>
    cases hz : cfg.zipDecode r.chunks.flatten with
    | none =>
      simp [processEntry, download_file, hnet, extract_zip, dlChunks_spec,
        List.nil_append, setFile_self, hz] at h
    | some members =>
      exact ⟨(file_path e.name, r.chunks.flatten) ::
               members.map (fun m => (pjoin (extractDir "data" (file_path e.name)) m.1, m.2)),
             ancestors (extractDir "data" (file_path e.name)),
             by simp [entryEffect, hnet, hz]⟩

/-- An entry that raises leaves every file and directory of the starting
state in place (the only possible changes are the newly written artifact
and the newly created target directory) and extends the print/event logs
without rewriting them. -/
theorem processEntry_error_preserves (cfg : Config) (st : State) (e : ManifestEntry)
    (st' : State) (h : processEntry cfg st e = Except.error st') :
    fsPreserved st st' ∧ dirsPreserved st st' ∧
      (∃ tl, st'.events = st.events ++ tl) ∧ (∃ tl, st'.out = st.out ++ tl) := by
  cases hnet : cfg.net e.url with
  | connectionError =>
    simp only [processEntry, download_file, hnet, Except.error.injEq] at h
    subst h
    exact ⟨fun q v hv => ⟨v, hv⟩, fun q hq => hq, ⟨[], by simp⟩, ⟨[], by simp⟩⟩
  | ok r =>
    cases hz : cfg.zipDecode r.chunks.flatten with
    | none =>
      simp only [processEntry, download_file, hnet, extract_zip, dlChunks_spec,
        List.nil_append, setFile_self, hz, Except.error.injEq] at h
      subst h
      refine ⟨?_, ?_, ⟨_, rfl⟩, ⟨[], by simp⟩⟩
      · intro q v hv
        dsimp only
        by_cases hq : q = file_path e.name
        · subst hq; exact ⟨_, setFile_self _ _ _⟩
        · exact ⟨v, by rw [setFile_ne _ _ _ _ hq]; exact hv⟩
      · intro q hq
        dsimp only
        exact applyDirs_mono _ _ _ hq
    | some members =>
      simp [processEntry, download_file, hnet, extract_zip, dlChunks_spec,
        List.nil_append, setFile_self, hz] at h

/-- A successfully processed entry also preserves every file and
directory (writes only add or overwrite, never delete). -/
theorem processEntry_ok_preserves (cfg : Config) (st : State) (e : ManifestEntry)
    (st' : State) (h : processEntry cfg st e = Except.ok st') :
    fsPreserved st st' ∧ dirsPreserved st st' ∧
      (∃ tl, st'.events = st.events ++ tl) ∧ (∃ tl, st'.out = st.out ++ tl) := by
  obtain ⟨ws, ds, heff⟩ := effect_some_of_processEntry_ok cfg st e st' h
  rw [processEntry_ok_of_effect cfg e ws ds heff st] at h
  have h' := h
  injection h' with h''
  subst h''
  refine ⟨?_, ?_, ⟨_, rfl⟩, ⟨_, rfl⟩⟩
  · intro q v hv
    dsimp only
    rw [applyWrites_lookup]
    cases hw : lastWrite ws q with
    | some w => exact ⟨w, rfl⟩
    | none => exact ⟨v, hv⟩
  · intro q hq
    dsimp only
    exact applyDirs_mono _ _ _ hq

/-! ## Characterizing the manifest loop -/

/-- Splitting the loop at a list boundary: the suffix runs from the
state the prefix completed with, and an abort in the prefix is final. -/
theorem runLoop_append (cfg : Config) (pre rest : List ManifestEntry) :
    ∀ st : State, runLoop cfg (pre ++ rest) st =
      match runLoop cfg pre st with
      | RunOutcome.completed st1 => runLoop cfg rest st1
      | RunOutcome.aborted st1 => RunOutcome.aborted st1 := by
  induction pre with
  | nil => intro st; rfl
  | cons e tl ih =>
    intro st
    show (match processEntry cfg st e with
          | Except.error stE => RunOutcome.aborted stE
          | Except.ok st1 => runLoop cfg (tl ++ rest) st1) = _
    cases hp : processEntry cfg st e with
    | error stE => simp [runLoop, hp]
    | ok st1 => simpa [runLoop, hp] using ih st1

/-- A loop whose entries all have defined effects completes from **any**
starting state, and its final state applies the concatenated effects in
order: the event trace is exactly the per-entry download/extract pairs in
document order, and one confirmation line is printed per entry. -/
theorem runLoop_of_effects (cfg : Config) (entries : List ManifestEntry) :
    ∀ (ws : List (String × List Byte)) (ds : List String),
      effectsOf cfg entries = some (ws, ds) →
      ∀ st : State, runLoop cfg entries st = RunOutcome.completed
        { fs := applyWrites ws st.fs, dirs := applyDirs ds st.dirs,
          events := st.events ++ entries.flatMap entryEvents,
          out := st.out ++ entries.map entryPrint } := by
  induction entries with
  | nil =>
    intro ws ds h st
    simp only [effectsOf, Option.some.injEq, Prod.mk.injEq] at h
    obtain ⟨hws, hds⟩ := h
    subst hws hds
    simp [runLoop, applyWrites, applyDirs]
  | cons e tl ih =>
    intro ws ds h st
    cases he : entryEffect cfg e with
    | none => simp [effectsOf, he] at h
    | some eff =>
      cases heff : effectsOf cfg tl with
      | none => simp [effectsOf, he, heff] at h
      | some eff' =>
        obtain ⟨ws₁, ds₁⟩ := eff
        obtain ⟨ws₂, ds₂⟩ := eff'
        simp only [effectsOf, he, heff, Option.some.injEq, Prod.mk.injEq] at h
        obtain ⟨hws, hds⟩ := h
        subst hws hds
        show (match processEntry cfg st e with
              | Except.error stE => RunOutcome.aborted stE
              | Except.ok st1 => runLoop cfg tl st1) = _
        rw [processEntry_ok_of_effect cfg e ws₁ ds₁ he st]
        dsimp only
        rw [ih ws₂ ds₂ heff]
        simp [applyWrites_append, applyDirs_append, List.append_assoc]

/-- A loop that completes has a defined effect list. -/
theorem effects_of_runLoop_completed (cfg : Config) (entries : List ManifestEntry) :
    ∀ (st st' : State), runLoop cfg entries st = RunOutcome.completed st' →
      ∃ ws ds, effectsOf cfg entries = some (ws, ds) := by
  induction entries with
  | nil => intro st st' _; exact ⟨[], [], rfl⟩
  | cons e tl ih =>
    intro st st' h
    revert h
    show (match processEntry cfg st e with
          | Except.error stE => RunOutcome.aborted stE
          | Except.ok st1 => runLoop cfg tl st1) = _ → _
    cases hp : processEntry cfg st e with
    | error stE => intro h; simp at h
    | ok st1 =>
      intro h
      obtain ⟨ws₁, ds₁, he⟩ := effect_some_of_processEntry_ok cfg st e st1 hp
      obtain ⟨ws₂, ds₂, heff⟩ := ih st1 st' h
      exact ⟨ws₁ ++ ws₂, ds₁ ++ ds₂, by simp [effectsOf, he, heff]⟩

/-- The loop never deletes a file or a directory and only appends to the
trace and to stdout, whether it completes or aborts. -/
theorem runLoop_preserves (cfg : Config) (entries : List ManifestEntry) :
    ∀ (st : State), fsPreserved st (runLoop cfg entries st).state ∧
      dirsPreserved st (runLoop cfg entries st).state ∧
      (∃ tl, (runLoop cfg entries st).state.events = st.events ++ tl) := by
  induction entries with
  | nil =>
    intro st
    exact ⟨fun q v hv => ⟨v, hv⟩, fun q hq => hq, ⟨[], by simp [runLoop, RunOutcome.state]⟩⟩
  | cons e tl ih =>
    intro st
    have hstep : runLoop cfg (e :: tl) st =
        match processEntry cfg st e with
        | Except.error stE => RunOutcome.aborted stE
        | Except.ok st1 => runLoop cfg tl st1 := rfl
    rw [hstep]
    cases hp : processEntry cfg st e with
    | error stE =>
      obtain ⟨h1, h2, ⟨tle, h3⟩, _⟩ := processEntry_error_preserves cfg st e stE hp
      exact ⟨h1, h2, ⟨tle, h3⟩⟩
    | ok st1 =>
      obtain ⟨h1, h2, ⟨tle, h3⟩, _⟩ := processEntry_ok_preserves cfg st e st1 hp
      obtain ⟨g1, g2, ⟨tle', g3⟩⟩ := ih st1
      refine ⟨?_, ?_, ⟨tle ++ tle', ?_⟩⟩
      · intro q v hv
        obtain ⟨w, hw⟩ := h1 q v hv
        exact g1 q w hw
      · intro q hq
        exact g2 q (h2 q hq)
      · rw [g3, h3, List.append_assoc]

/-! ## Characterizing the whole program -/

/-- A manifest whose entries all have defined effects runs to completion
from any starting state; the final state is the starting state plus the
two base directories, the concatenated entry effects, the full trace in
document order, one confirmation line per entry, and the final message. -/
theorem runProgram_of_effects (cfg : Config) (m : List ManifestEntry)
    (ws : List (String × List Byte)) (ds : List String)
    (h : effectsOf cfg m = some (ws, ds)) (st0 : State) :
    runProgram cfg m st0 = RunOutcome.completed
      { fs := applyWrites ws st0.fs,
        dirs := applyDirs ((ancestors "downloads" ++ ancestors "data") ++ ds) st0.dirs,
        events := st0.events ++ m.flatMap entryEvents,
        out := (st0.out ++ m.map entryPrint) ++ ["Download and extraction complete."] } := by
  unfold runProgram
  rw [runLoop_of_effects cfg m ws ds h]
  dsimp only
  rw [makedirs, makedirs, ← applyDirs_append, ← applyDirs_append]
  simp [List.append_assoc]

/-- A program run that completes has a defined effect list. -/
theorem effects_of_runProgram_completed (cfg : Config) (m : List ManifestEntry)
    (st0 st1 : State) (h : runProgram cfg m st0 = RunOutcome.completed st1) :
    ∃ ws ds, effectsOf cfg m = some (ws, ds) := by
  unfold runProgram at h
  cases hL : runLoop cfg m
      { st0 with dirs := makedirs (makedirs st0.dirs "downloads") "data" } with
  | completed st => exact effects_of_runLoop_completed cfg m _ st hL
  | aborted st => rw [hL] at h; simp at h

/-! ## Lemmas about `splitext` and trace counts -/

theorem splitAtLastChar_of_not_mem (sep : Char) :
    ∀ l : List Char, sep ∉ l → splitAtLastChar sep l = none := by
  intro l
  induction l with
  | nil => intro _; rfl
  | cons c cs ih =>
    intro h
    have hc : c ≠ sep := fun hc => h (hc ▸ List.mem_cons_self c cs)
    have hcs : sep ∉ cs := fun hm => h (List.mem_cons_of_mem c hm)
    simp [splitAtLastChar, ih hcs, hc]

theorem splitAtLastChar_append (sep : Char) (b : List Char) (hb : sep ∉ b) :
    ∀ a : List Char, splitAtLastChar sep (a ++ sep :: b) = some (a, b) := by
  intro a
  induction a with
  | nil =>
    simp [splitAtLastChar, splitAtLastChar_of_not_mem sep b hb]
  | cons c a' ih =>
    simp [splitAtLastChar, ih]

theorem countP_isDownload_flatMap (m : List ManifestEntry) :
    ((m.flatMap entryEvents).countP Event.isDownload) = m.length := by
  induction m with
  | nil => rfl
  | cons e tl ih =>
    simp [entryEvents, List.countP_cons, ih, Event.isDownload]

theorem countP_isExtract_flatMap (m : List ManifestEntry) :
    ((m.flatMap entryEvents).countP Event.isExtract) = m.length := by
  induction m with
  | nil => rfl
  | cons e tl ih =>
    simp [entryEvents, List.countP_cons, ih, Event.isExtract]

/-! ## Concrete environments used by counterexamples and witnesses -/

/-- A response with a non-success status whose body happens to be a
well-formed zip (two known bytes). -/
def r404 : HttpResponse := { status := 404, contentLength := some 2, chunks := [[1, 2]] }

/-- A success response with no `content-length` header and an empty
middle chunk. -/
def rPlain : HttpResponse := { status := 200, contentLength := none, chunks := [[3], [], [4]] }

/-- An environment where `uA` answers the (valid-zip-body) 404 response,
`uB` a success response, and the two bodies decode as small archives. -/
def cfg404 : Config :=
  { net := fun u =>
      if u = "uA" then NetResult.ok r404
      else if u = "uB" then NetResult.ok rPlain
      else NetResult.connectionError,
    zipDecode := fun b =>
      if b = [1, 2] then some [("f.txt", [9])]
      else if b = [3, 4] then some [("g.txt", [8]), ("sub/h.txt", [7])]
      else none }

/-- A two-entry manifest: first entry hits the 404 URL. -/
def manifest404 : List ManifestEntry := [⟨"a.zip", "uA"⟩, ⟨"b.zip", "uB"⟩]

/-- A success response whose body decodes as nothing (not a zip). -/
def rBadZip : HttpResponse := { status := 200, contentLength := some 1, chunks := [[5]] }

/-- An environment where the only URL returns content that is not a zip
archive. -/
def cfgBadZip : Config :=
  { net := fun u => if u = "uBad" then NetResult.ok rBadZip else NetResult.connectionError,
    zipDecode := fun _ => none }

/-! ## Claim C1 -/

/-- **C1, counterexample.**  The claim says a non-success HTTP status is
a fatal download failure aborting all later entries.  In the code,
`requests.get` does not raise on a 404 and `download_file` never inspects
`response.status`: the 404 body is written to `downloads/a.zip`, and —
since this body happens to decode as a zip — the run continues, downloads
and extracts the second entry, and completes. -/
theorem C1_counterexample :
    cfg404.net "uA" = NetResult.ok r404 ∧ r404.status = 404 ∧
    (runProgram cfg404 manifest404 initState).isCompleted = true ∧
    (runProgram cfg404 manifest404 initState).state.events =
      [Event.download "uA" "downloads/a.zip", Event.extract "downloads/a.zip" "data/a",
       Event.download "uB" "downloads/b.zip", Event.extract "downloads/b.zip" "data/b"] ∧
    (runProgram cfg404 manifest404 initState).state.fs "downloads/a.zip" = some [1, 2] := by
  exact ⟨rfl, rfl, rfl, by decide, rfl⟩

/-- **C1, amended.**  `download_file` ignores the HTTP status: for any
response — whatever its status — the body is written to
`downloads/<name>`.  The run aborts before any later entry only when a
subsequent step fails, e.g. when the written body is not a valid zip (the
usual case for an error page); the aborting entry's artifact stays on
disk, every other file is untouched, and nothing of the remaining entries
is downloaded or extracted. -/
theorem C1_amended (cfg : Config) (st : State) (e : ManifestEntry)
    (rest : List ManifestEntry) (r : HttpResponse)
    (hnet : cfg.net e.url = NetResult.ok r)
    (hz : cfg.zipDecode r.chunks.flatten = none) :
    ∃ st', runLoop cfg (e :: rest) st = RunOutcome.aborted st' ∧
      st'.fs (file_path e.name) = some r.chunks.flatten ∧
      (∀ q, q ≠ file_path e.name → st'.fs q = st.fs q) ∧
      dirsPreserved st st' ∧
      st'.events = st.events ++ [Event.download e.url (file_path e.name)] ∧
      st'.out = st.out := by
  refine ⟨{ fs := setFile st.fs (file_path e.name) r.chunks.flatten,
            dirs := makedirs st.dirs (extractDir "data" (file_path e.name)),
            events := st.events ++ [Event.download e.url (file_path e.name)],
            out := st.out }, ?_, setFile_self _ _ _,
          fun q hq => setFile_ne _ _ _ _ hq,
          fun q hq => applyDirs_mono _ _ _ hq, rfl, rfl⟩
  show (match processEntry cfg st e with
        | Except.error stE => RunOutcome.aborted stE
        | Except.ok st1 => runLoop cfg rest st1) = _
  simp [processEntry, download_file, hnet, extract_zip, dlChunks_spec,
    List.nil_append, setFile_self, hz, makedirs]

/-- Witness for the amended C1 at a concrete environment: an entry whose
URL serves a body that is not a zip. -/
theorem C1_amended_witness :
    cfgBadZip.net "uBad" = NetResult.ok rBadZip ∧
    cfgBadZip.zipDecode rBadZip.chunks.flatten = none ∧
    (∃ st', runLoop cfgBadZip (⟨"bad.zip", "uBad"⟩ :: [⟨"later.zip", "uBad"⟩]) initState =
        RunOutcome.aborted st' ∧
      st'.fs (file_path "bad.zip") = some rBadZip.chunks.flatten ∧
      (∀ q, q ≠ file_path "bad.zip" → st'.fs q = initState.fs q) ∧
      dirsPreserved initState st' ∧
      st'.events = initState.events ++ [Event.download "uBad" (file_path "bad.zip")] ∧
      st'.out = initState.out) :=
  ⟨rfl, rfl, C1_amended cfgBadZip initState ⟨"bad.zip", "uBad"⟩ [⟨"later.zip", "uBad"⟩]
    rBadZip rfl rfl⟩

/-! ## Claim C2 -/

/-- **C2.**  A completed run over a manifest of N entries performs
exactly N downloads and N extractions: its trace is precisely the
per-entry download/extract pairs concatenated in document order, so
entry k's download and extraction are both done before entry k+1's
download starts. -/
theorem C2_loop_order_and_counts (cfg : Config) (m : List ManifestEntry) (st1 : State)
    (h : runProgram cfg m initState = RunOutcome.completed st1) :
    st1.events = m.flatMap entryEvents ∧
    st1.events.countP Event.isDownload = m.length ∧
    st1.events.countP Event.isExtract = m.length := by
  obtain ⟨ws, ds, heff⟩ := effects_of_runProgram_completed cfg m initState st1 h
  rw [runProgram_of_effects cfg m ws ds heff initState] at h
  injection h with h1
  subst h1
  refine ⟨by simp [initState], ?_, ?_⟩
  · dsimp only [initState]
    rw [List.nil_append, countP_isDownload_flatMap]
  · dsimp only [initState]
    rw [List.nil_append, countP_isExtract_flatMap]

/-- Witness for C2 on a concrete two-entry manifest. -/
theorem C2_witness :
    runProgram cfg404 manifest404 initState =
      RunOutcome.completed ((runProgram cfg404 manifest404 initState).state) ∧
    ((runProgram cfg404 manifest404 initState).state.events = manifest404.flatMap entryEvents ∧
     (runProgram cfg404 manifest404 initState).state.events.countP Event.isDownload =
       manifest404.length ∧
     (runProgram cfg404 manifest404 initState).state.events.countP Event.isExtract =
       manifest404.length) :=
  ⟨rfl, C2_loop_order_and_counts cfg404 manifest404 _ rfl⟩

/-! ## Claim C3 -/

/-- **C3.**  An entry named `"example.zip"` has its artifact written to
`downloads/example.zip` and its contents extracted into `data/example`
(base name with the extension stripped): the download writes the response
body at exactly that path, and the successful entry's trace records the
download at `downloads/example.zip` followed by the extraction into
`data/example`, which then exists as a directory. -/
theorem C3_entry_paths (cfg : Config) (st : State) (e : ManifestEntry) (r : HttpResponse)
    (members : List (String × List Byte))
    (hname : e.name = "example.zip")
    (hnet : cfg.net e.url = NetResult.ok r)
    (hz : cfg.zipDecode r.chunks.flatten = some members) :
    file_path e.name = "downloads/example.zip" ∧
    extractDir "data" (file_path e.name) = "data/example" ∧
    (∃ stD bar, download_file cfg e.url (file_path e.name) st = Except.ok (stD, bar) ∧
      stD.fs "downloads/example.zip" = some r.chunks.flatten) ∧
    (∃ st', processEntry cfg st e = Except.ok st' ∧
      st'.events = st.events ++
        [Event.download e.url "downloads/example.zip",
         Event.extract "downloads/example.zip" "data/example"] ∧
      st'.dirs "data/example" = true) := by
  have hfp : file_path e.name = "downloads/example.zip" := by rw [hname]; decide
  have hed : extractDir "data" (file_path e.name) = "data/example" := by rw [hfp]; decide
  refine ⟨hfp, hed, ?_, ?_⟩
  · refine ⟨({ st with fs := setFile st.fs (file_path e.name) r.chunks.flatten, events := st.events ++ [Event.download e.url (file_path e.name)] }),
            ({ total := r.contentLength.getD 0, n := 0 + r.chunks.flatten.length, desc := basename (file_path e.name) }), ?_, ?_⟩
    · simp only [download_file, hnet, dlChunks_spec, List.nil_append]
    · show setFile st.fs (file_path e.name) r.chunks.flatten "downloads/example.zip" =
        some r.chunks.flatten
      rw [← hfp]
      exact setFile_self _ _ _
  · have heff : entryEffect cfg e = some
        ((file_path e.name, r.chunks.flatten) ::
           members.map (fun mem => (pjoin (extractDir "data" (file_path e.name)) mem.1, mem.2)),
         ancestors (extractDir "data" (file_path e.name))) := by
      simp [entryEffect, hnet, hz]
    refine ⟨_, processEntry_ok_of_effect cfg e _ _ heff st, ?_, ?_⟩
    · dsimp only
      have hed2 : extractDir "data" "downloads/example.zip" = "data/example" := by decide
      simp only [entryEvents, hfp, hed, hed2]
    · dsimp only
      rw [hed, applyDirs_lookup]
      have hm : "data/example" ∈ ancestors "data/example" := by decide
      simp [hm]

/-- Witness for C3: a concrete entry named `example.zip` against the
concrete environment. -/
theorem C3_witness :
    (ManifestEntry.mk "example.zip" "uA").name = "example.zip" ∧
    cfg404.net (ManifestEntry.mk "example.zip" "uA").url = NetResult.ok r404 ∧
    cfg404.zipDecode r404.chunks.flatten = some [("f.txt", [9])] ∧
    (file_path (ManifestEntry.mk "example.zip" "uA").name = "downloads/example.zip" ∧
     extractDir "data" (file_path (ManifestEntry.mk "example.zip" "uA").name) = "data/example" ∧
     (∃ stD bar, download_file cfg404 (ManifestEntry.mk "example.zip" "uA").url
         (file_path (ManifestEntry.mk "example.zip" "uA").name) initState =
           Except.ok (stD, bar) ∧
       stD.fs "downloads/example.zip" = some r404.chunks.flatten) ∧
     (∃ st', processEntry cfg404 initState (ManifestEntry.mk "example.zip" "uA") =
         Except.ok st' ∧
       st'.events = initState.events ++
         [Event.download (ManifestEntry.mk "example.zip" "uA").url "downloads/example.zip",
          Event.extract "downloads/example.zip" "data/example"] ∧
       st'.dirs "data/example" = true)) :=
  ⟨rfl, rfl, rfl,
   C3_entry_paths cfg404 initState (ManifestEntry.mk "example.zip" "uA") r404
     [("f.txt", [9])] rfl rfl rfl⟩

/-! ## Claim C4 -/

/-- **C4.**  With no `content-length` header the bar total is `0`, the
download still completes, and the destination file holds exactly the
concatenation of the response's chunks (the bar having counted exactly
those bytes). -/
theorem C4_absent_content_length (cfg : Config) (url dest : String) (st : State)
    (r : HttpResponse) (hnet : cfg.net url = NetResult.ok r)
    (hcl : r.contentLength = none) :
    ∃ st' bar, download_file cfg url dest st = Except.ok (st', bar) ∧
      bar.total = 0 ∧ bar.n = r.chunks.flatten.length ∧
      st'.fs dest = some r.chunks.flatten ∧
      st'.events = st.events ++ [Event.download url dest] := by
  refine ⟨({ st with fs := setFile st.fs dest r.chunks.flatten, events := st.events ++ [Event.download url dest] }),
          ({ total := r.contentLength.getD 0, n := 0 + r.chunks.flatten.length, desc := basename dest }), ?_, ?_, Nat.zero_add _, setFile_self _ _ _, rfl⟩
  · simp only [download_file, hnet, dlChunks_spec, List.nil_append]
  · rw [hcl]; rfl

/-- Witness for C4: a response with no `content-length` and an empty
middle chunk. -/
theorem C4_witness :
    cfg404.net "uB" = NetResult.ok rPlain ∧ rPlain.contentLength = none ∧
    (∃ st' bar, download_file cfg404 "uB" "downloads/b.zip" initState = Except.ok (st', bar) ∧
      bar.total = 0 ∧ bar.n = rPlain.chunks.flatten.length ∧
      st'.fs "downloads/b.zip" = some rPlain.chunks.flatten ∧
      st'.events = initState.events ++ [Event.download "uB" "downloads/b.zip"]) :=
  ⟨rfl, rfl, C4_absent_content_length cfg404 "uB" "downloads/b.zip" initState rPlain rfl rfl⟩

/-! ## Claim C5 -/

/-- **C5.**  When entry k fails after entries 1..k-1 completed, the run
aborts with exactly the state at the raise: nothing after k is processed
(the aborted state does not depend on the remaining entries), no file or
directory produced by the earlier entries is removed, and the trace is
only ever extended. -/
theorem C5_abort_no_rollback (cfg : Config) (pre post : List ManifestEntry)
    (e : ManifestEntry) (st0 st1 st2 : State)
    (hpre : runLoop cfg pre st0 = RunOutcome.completed st1)
    (hfail : processEntry cfg st1 e = Except.error st2) :
    runLoop cfg (pre ++ e :: post) st0 = RunOutcome.aborted st2 ∧
    fsPreserved st1 st2 ∧ dirsPreserved st1 st2 ∧
    (∃ tl, st2.events = st1.events ++ tl) := by
  obtain ⟨h1, h2, h3, _⟩ := processEntry_error_preserves cfg st1 e st2 hfail
  refine ⟨?_, h1, h2, h3⟩
  rw [runLoop_append, hpre]
  show (match processEntry cfg st1 e with
        | Except.error stE => RunOutcome.aborted stE
        | Except.ok stN => runLoop cfg post stN) = _
  rw [hfail]

/-- The state after the completed one-entry prefix of the C5 witness. -/
def st1W : State := (runLoop cfg404 [⟨"a.zip", "uA"⟩] initState).state

/-- The state at the raise of the C5 witness's failing entry (its URL is
served by no host, so `requests.get` raises a connection error). -/
def st2W : State := exceptState (processEntry cfg404 st1W ⟨"x.zip", "uFail"⟩)

/-- Witness for C5: one completed entry, then a failing entry, then one
never-processed entry. -/
theorem C5_witness :
    runLoop cfg404 [⟨"a.zip", "uA"⟩] initState = RunOutcome.completed st1W ∧
    processEntry cfg404 st1W ⟨"x.zip", "uFail"⟩ = Except.error st2W ∧
    (runLoop cfg404 ([⟨"a.zip", "uA"⟩] ++ ⟨"x.zip", "uFail"⟩ :: [⟨"c.zip", "uB"⟩]) initState =
       RunOutcome.aborted st2W ∧
     fsPreserved st1W st2W ∧ dirsPreserved st1W st2W ∧
     (∃ tl, st2W.events = st1W.events ++ tl)) :=
  ⟨rfl, rfl,
   C5_abort_no_rollback cfg404 [⟨"a.zip", "uA"⟩] [⟨"c.zip", "uB"⟩] ⟨"x.zip", "uFail"⟩
     initState st1W st2W rfl rfl⟩

/-! ## Claim C6 -/

/-- **C6.**  With a stable environment, a second run over the same
manifest starting from a completed run's final state completes again and
reproduces the same filesystem and directory set: each artifact is
unconditionally re-downloaded and overwritten (`setFile` discards the
prior contents) and each extraction re-targets the same directories,
whose prior existence is not an error (`makedirs` with `exist_ok`). -/
theorem C6_rerun_same_state (cfg : Config) (m : List ManifestEntry) (st0 st1 : State)
    (h : runProgram cfg m st0 = RunOutcome.completed st1) :
    ∃ st2, runProgram cfg m st1 = RunOutcome.completed st2 ∧
      st2.fs = st1.fs ∧ st2.dirs = st1.dirs := by
  obtain ⟨ws, ds, heff⟩ := effects_of_runProgram_completed cfg m st0 st1 h
  rw [runProgram_of_effects cfg m ws ds heff st0] at h
  injection h with h1
  subst h1
  refine ⟨_, runProgram_of_effects cfg m ws ds heff _, ?_, ?_⟩
  · dsimp only
    rw [applyWrites_idem]
  · dsimp only
    rw [applyDirs_idem]

/-- The final state of the first C6 witness run. -/
def st1Rerun : State := (runProgram cfg404 manifest404 initState).state

/-- Witness for C6: running the concrete two-entry manifest a second
time from the first run's final state. -/
theorem C6_witness :
    runProgram cfg404 manifest404 initState = RunOutcome.completed st1Rerun ∧
    (∃ st2, runProgram cfg404 manifest404 st1Rerun = RunOutcome.completed st2 ∧
       st2.fs = st1Rerun.fs ∧ st2.dirs = st1Rerun.dirs) :=
  ⟨rfl, C6_rerun_same_state cfg404 manifest404 initState st1Rerun rfl⟩

/-! ## Claim C7 -/

/-- **C7.**  The bytes written by `download_file` do not depend on the
progress-reporting state: two environments serving the same chunk
sequence for a URL — e.g. differing only in the `content-length` header,
which feeds only the bar's total — produce the *same* resulting state
(file contents included); only the returned bar may differ. -/
theorem C7_progress_noninterference (cfga cfgb : Config) (url dest : String)
    (st : State) (ra rb : HttpResponse)
    (ha : cfga.net url = NetResult.ok ra) (hb : cfgb.net url = NetResult.ok rb)
    (hch : ra.chunks = rb.chunks) :
    ∃ st' bara barb,
      download_file cfga url dest st = Except.ok (st', bara) ∧
      download_file cfgb url dest st = Except.ok (st', barb) ∧
      st'.fs dest = some ra.chunks.flatten := by
  refine ⟨({ st with fs := setFile st.fs dest ra.chunks.flatten, events := st.events ++ [Event.download url dest] }),
          ({ total := ra.contentLength.getD 0, n := 0 + ra.chunks.flatten.length, desc := basename dest }),
          ({ total := rb.contentLength.getD 0, n := 0 + rb.chunks.flatten.length, desc := basename dest }),
          ?_, ?_, setFile_self _ _ _⟩
  · simp only [download_file, ha, dlChunks_spec, List.nil_append]
  · simp only [download_file, hb, dlChunks_spec, List.nil_append, ← hch]

/-- The response served by `cfg7a`: a known `content-length`. -/
def r7a : HttpResponse := { status := 200, contentLength := some 99, chunks := [[1, 2]] }

/-- The response served by `cfg7b`: same body, no `content-length`. -/
def r7b : HttpResponse := { status := 200, contentLength := none, chunks := [[1, 2]] }

/-- Environment serving `r7a` at `u7`. -/
def cfg7a : Config :=
  { net := fun u => if u = "u7" then NetResult.ok r7a else NetResult.connectionError,
    zipDecode := fun _ => none }

/-- Environment serving `r7b` at `u7`. -/
def cfg7b : Config :=
  { net := fun u => if u = "u7" then NetResult.ok r7b else NetResult.connectionError,
    zipDecode := fun _ => none }

/-- Witness for C7: the two concrete environments differing only in the
`content-length` header.  -/
theorem C7_witness :
    cfg7a.net "u7" = NetResult.ok r7a ∧ cfg7b.net "u7" = NetResult.ok r7b ∧
    r7a.chunks = r7b.chunks ∧ r7a.contentLength ≠ r7b.contentLength ∧
    (∃ st' bara barb,
      download_file cfg7a "u7" "downloads/x.zip" initState = Except.ok (st', bara) ∧
      download_file cfg7b "u7" "downloads/x.zip" initState = Except.ok (st', barb) ∧
      st'.fs "downloads/x.zip" = some r7a.chunks.flatten) :=
  ⟨rfl, rfl, rfl, by decide,
   C7_progress_noninterference cfg7a cfg7b "u7" "downloads/x.zip" initState r7a r7b
     rfl rfl rfl⟩

/-! ## Claim C8 -/

/-- **C8.**  A zero-entry manifest: the run completes having performed
no download and no extraction, printed exactly the final completion
message, created no file, and created exactly the two base directories
`downloads` and `data`. -/
theorem C8_empty_manifest (cfg : Config) :
    runProgram cfg [] initState =
      RunOutcome.completed ((runProgram cfg [] initState).state) ∧
    (runProgram cfg [] initState).state.events = [] ∧
    (runProgram cfg [] initState).state.out = ["Download and extraction complete."] ∧
    (∀ p, (runProgram cfg [] initState).state.fs p = none) ∧
    (∀ d, (runProgram cfg [] initState).state.dirs d = true ↔
       (d = "downloads" ∨ d = "data")) := by
  refine ⟨rfl, rfl, rfl, fun p => rfl, fun d => ?_⟩
  show makedirs (makedirs initState.dirs "downloads") "data" d = true ↔ _
  have h1 : ancestors "downloads" = ["downloads"] := by decide
  have h2 : ancestors "data" = ["data"] := by decide
  rw [makedirs, makedirs, h1, h2, applyDirs_lookup, applyDirs_lookup]
  constructor
  · intro h
    by_cases hd : d = "data"
    · exact Or.inr hd
    · left
      simp only [List.mem_singleton, hd, if_false] at h
      by_cases hdl : d = "downloads"
      · exact hdl
      · simp [hdl, initState] at h
  · intro h
    rcases h with h | h <;> simp [h]

/-! ## Claim C9 -/

/-- **C9, counterexample.**  The claim says every name containing `..`
or a path separator yields a path outside the downloads directory.  But
`"sub/x.zip"` contains a separator and joins to
`downloads/sub/x.zip`, which resolves to a path still under
`downloads`; likewise `"..a.zip"` contains `..` yet is a plain file name
inside `downloads`. -/
theorem C9_counterexample :
    ('/' ∈ ("sub/x.zip" : String).toList) ∧
    file_path "sub/x.zip" = "downloads/sub/x.zip" ∧
    (resolveRel (file_path "sub/x.zip")).head? = some "downloads" ∧
    (("..a.zip" : String).toList ≠ [] ∧ "..a.zip".toList.take 2 = ['.', '.']) ∧
    (resolveRel (file_path "..a.zip")).head? = some "downloads" := by
  exact ⟨by decide, by decide, by decide, ⟨by decide, by decide⟩, by decide⟩

/-- **C9, amended.**  The destination is the verbatim POSIX join of
`"downloads"` with the manifest-supplied name — no sanitization at all:
an absolute name *is* the destination (the join discards `"downloads"`),
any relative name is glued verbatim after `downloads/`, and a name with
a leading `..` component (e.g. `"../evil.zip"`) therefore resolves
outside the `downloads` directory. -/
theorem C9_no_sanitization :
    (∀ name : String, name.toList.head? = some '/' → file_path name = name) ∧
    (∀ name : String, name.toList.head? ≠ some '/' →
       file_path name = "downloads/" ++ name) ∧
    file_path "../evil.zip" = "downloads/../evil.zip" ∧
    resolveRel (file_path "../evil.zip") = ["evil.zip"] ∧
    (resolveRel (file_path "../evil.zip")).head? ≠ some "downloads" := by
  refine ⟨?_, ?_, by decide, by decide, by decide⟩
  · intro name h
    have h' : name.data.head? = some '/' := h
    simp [file_path, pjoin, h']
  · intro name h
    simp only [file_path, pjoin]
    rw [if_neg h, if_neg (by decide)]
    rfl

/-- Witness for the amended C9 at a concrete absolute name and a
concrete relative name. -/
theorem C9_witness :
    (("/tmp/evil.zip" : String).toList.head? = some '/' ∧
      file_path "/tmp/evil.zip" = "/tmp/evil.zip") ∧
    (("evil.zip" : String).toList.head? ≠ some '/' ∧
      file_path "evil.zip" = "downloads/" ++ "evil.zip") :=
  ⟨⟨by decide, C9_no_sanitization.1 "/tmp/evil.zip" (by decide)⟩,
   ⟨by decide, C9_no_sanitization.2.1 "evil.zip" (by decide)⟩⟩

/-! ## Claim C10 -/

/-- **C10, counterexample.**  The claim says every multi-dot archive
name has only its final extension stripped.  For `"..gz"` (two dots)
Python's `splitext` strips nothing — the characters before the last dot
are all dots — so the extraction target is `data/..gz`, not the
`data/.` that stripping the final extension would give. -/
theorem C10_counterexample :
    ("..gz" : String).toList.count '.' = 2 ∧
    extractDir "data" (file_path "..gz") = "data/..gz" ∧
    stripFinalExt (basename (file_path "..gz")) = "." ∧
    extractDir "data" (file_path "..gz") ≠
      pjoin "data" (stripFinalExt (basename (file_path "..gz"))) := by
  exact ⟨by decide, by decide, by decide, by decide⟩

/-- **C10, amended.**  The subfolder name strips the final extension of
the archive's base name **provided** some character before the base
name's last dot is not itself a dot; a base name with no dot is kept
unchanged, and so is one whose characters before its last dot are all
dots (e.g. `"..gz"`, `".gz"`). -/
theorem C10_amended :
    (∀ s : String, '.' ∉ s.toList → splitextRoot s = s) ∧
    (∀ a b : List Char, '.' ∉ b → a.all (fun c => c = '.') = false →
       splitextRoot ⟨a ++ '.' :: b⟩ = ⟨a⟩) ∧
    (∀ a b : List Char, '.' ∉ b → a.all (fun c => c = '.') = true →
       splitextRoot ⟨a ++ '.' :: b⟩ = ⟨a ++ '.' :: b⟩) := by
  refine ⟨?_, ?_, ?_⟩
  · intro s h
    rw [splitextRoot, splitAtLastDot, splitAtLastChar_of_not_mem '.' s.toList h]
  · intro a b hb ha
    rw [splitextRoot]
    show (match splitAtLastDot (a ++ '.' :: b) with
          | none => (⟨a ++ '.' :: b⟩ : String)
          | some (x, _) => if x.all (fun c => c = '.') then ⟨a ++ '.' :: b⟩ else ⟨x⟩) = _
    rw [splitAtLastDot, splitAtLastChar_append '.' b hb a]
    simp [ha]
  · intro a b hb ha
    rw [splitextRoot]
    show (match splitAtLastDot (a ++ '.' :: b) with
          | none => (⟨a ++ '.' :: b⟩ : String)
          | some (x, _) => if x.all (fun c => c = '.') then ⟨a ++ '.' :: b⟩ else ⟨x⟩) = _
    rw [splitAtLastDot, splitAtLastChar_append '.' b hb a]
    simp [ha]

/-- Witness for the amended C10 at concrete names: `"archive"` (no dot)
stays itself, `"a.tar.gz"` becomes `"a.tar"`, `"..gz"` stays itself. -/
theorem C10_amended_witness :
    ('.' ∉ ("archive" : String).toList ∧ splitextRoot "archive" = "archive") ∧
    ('.' ∉ (['g', 'z'] : List Char) ∧
      ("a.tar".toList.all (fun c => c = '.')) = false ∧
      splitextRoot ⟨"a.tar".toList ++ '.' :: ['g', 'z']⟩ = ⟨"a.tar".toList⟩) ∧
    ('.' ∉ (['g', 'z'] : List Char) ∧
      ((['.'] : List Char).all (fun c => c = '.')) = true ∧
      splitextRoot ⟨['.'] ++ '.' :: ['g', 'z']⟩ = ⟨['.'] ++ '.' :: ['g', 'z']⟩) :=
  ⟨⟨by decide, C10_amended.1 "archive" (by decide)⟩,
   ⟨by decide, by decide, C10_amended.2.1 "a.tar".toList ['g', 'z'] (by decide) (by decide)⟩,
   ⟨by decide, by decide, C10_amended.2.2 ['.'] ['g', 'z'] (by decide) (by decide)⟩⟩

end Dataset
